import Mathlib

/-!
Verification of the Vault Cache & Query Engine (obsidian-api).

Strings of the TypeScript source are modelled as `List Char` (`Str`), JS
string primitives (`split`, `indexOf`, `slice`, `trim`, `toLowerCase`,
`startsWith`, `endsWith`, `includes`) as executable functions on `Str`,
and JS `Map` snapshots as association lists in insertion order.
-/

/-- Character sequences standing for JavaScript strings. -/
abbrev Str := List Char

/-- Build a `Str` from a Lean string literal. -/
def strOf (s : String) : Str := s.data

/-- Per-character model of `String.prototype.toLowerCase`. -/
def lowerStr (s : Str) : Str := s.map Char.toLower

/-- Model of JS `String.prototype.split(sep)` for a one-character
separator: `"".split(c)` is `[""]`, and every separator occurrence opens a
new (possibly empty) field. -/
def splitCh (c : Char) : Str → List Str
  | [] => [[]]
  | x :: xs =>
    match splitCh c xs with
    | [] => [[x]]
    | y :: ys => if x = c then [] :: y :: ys else (x :: y) :: ys

/-- Model of JS `String.prototype.indexOf(needle)`: index of the first
occurrence, `none` when absent (`-1` in JS). `indexOf("")` is `0`. -/
def indexOfStr (needle : Str) : Str → Option Nat
  | [] => if needle.isPrefixOf [] then some 0 else none
  | x :: t =>
    if needle.isPrefixOf (x :: t) then some 0
    else (indexOfStr needle t).map (· + 1)

/-- Model of JS `String.prototype.includes(needle)`. -/
def includesStr (needle hay : Str) : Bool := (indexOfStr needle hay).isSome

/-- Model of JS `String.prototype.slice(a, b)` for already-clamped
indices `0 ≤ a`, `b ≤ length` (the only way the source calls it). -/
def jsSlice (s : Str) (a b : Nat) : Str := (s.drop a).take (b - a)

/-- Result of one search hit, as in `SearchResult` of the source. -/
structure SearchResult where
  filePath : Str
  lineNumber : Nat
  context : Str
deriving DecidableEq, Repr

/-- Loop of `searchInContent` (src/vault-cache/service.ts:71-87): scan the
lines with a 0-based counter, emitting one result per matching line. -/
def searchLoop (filePath lowerQuery : Str) (queryLen : Nat) :
    List Str → Nat → List SearchResult
  | [], _ => []
  | line :: rest, i =>
    let lowerLine := lowerStr line
    let hd :=
      match indexOfStr lowerQuery lowerLine with
      | none => []
      | some matchIndex =>
        let start := matchIndex - 100
        let stop := min line.length (matchIndex + queryLen + 100)
        [{ filePath := filePath, lineNumber := i + 1,
           context := jsSlice line start stop }]
    hd ++ searchLoop filePath lowerQuery queryLen rest (i + 1)

/-- Embedding of `searchInContent` (src/vault-cache/service.ts:66-90):
split the body on newlines, lowercase query and line, and for each line
containing the query emit the 1-based line number together with a context
window `[max(0, m-100), min(len, m+|q|+100))` around the first occurrence
`m`. `Math.max(0, matchIndex - 100)` is truncated subtraction on `Nat`. -/
def searchInContent (content query filePath : Str) : List SearchResult :=
  searchLoop filePath (lowerStr query) query.length (splitCh '\n' content) 0

/-- Per-line result used to characterize `searchLoop`: `idx` is the
0-based line index, the emitted `lineNumber` is `idx + 1`. -/
def lineHit (filePath lowerQuery : Str) (queryLen : Nat) (p : Nat × Str) :
    Option SearchResult :=
  match indexOfStr lowerQuery (lowerStr p.2) with
  | none => none
  | some m =>
    some { filePath := filePath, lineNumber := p.1 + 1,
           context := jsSlice p.2 (m - 100) (min p.2.length (m + queryLen + 100)) }

/-- Body of the search-correctness test fixture:
`"a".repeat(150) + "query" + "b".repeat(150)`. -/
def searchExampleBody : Str :=
  List.replicate 150 'a' ++ strOf "query" ++ List.replicate 150 'b'

theorem searchLoop_eq (fp lq : Str) (ql : Nat) :
    ∀ (ls : List Str) (i : Nat),
      searchLoop fp lq ql ls i =
        (List.enumFrom i ls).filterMap (lineHit fp lq ql)
  | [], _ => rfl
  | line :: rest, i => by
    simp only [searchLoop, List.enumFrom, List.filterMap_cons]
    rw [searchLoop_eq fp lq ql rest (i + 1)]
    cases h : indexOfStr lq (lowerStr line) <;>
      simp [lineHit, h]

theorem searchLoop_mem_gt (fp lq : Str) (ql : Nat) :
    ∀ (ls : List Str) (i : Nat) (r : SearchResult),
      r ∈ searchLoop fp lq ql ls i → i < r.lineNumber
  | [], _, _ => by intro hr; simp [searchLoop] at hr
  | line :: rest, i, r => by
    intro hr
    simp only [searchLoop] at hr
    rcases List.mem_append.mp hr with hhd | htl
    · cases h : indexOfStr lq (lowerStr line) <;> rw [h] at hhd
      · simp at hhd
      · simp only [List.mem_singleton] at hhd
        subst hhd; exact Nat.lt_succ_self i
    · exact Nat.lt_of_succ_lt (searchLoop_mem_gt fp lq ql rest (i + 1) r htl)

theorem searchLoop_atMostOne (fp lq : Str) (ql n : Nat) :
    ∀ (ls : List Str) (i : Nat),
      ((searchLoop fp lq ql ls i).filter (fun r => r.lineNumber == n)).length ≤ 1
  | [], _ => by simp [searchLoop]
  | line :: rest, i => by
    simp only [searchLoop, List.filter_append, List.length_append]
    cases h : indexOfStr lq (lowerStr line)
    · simpa using searchLoop_atMostOne fp lq ql n rest (i + 1)
    · by_cases hn : i + 1 = n
      · subst hn
        have htl : (searchLoop fp lq ql rest (i + 1)).filter
            (fun r => r.lineNumber == i + 1) = [] := by
          refine List.filter_eq_nil_iff.mpr (fun r hr => ?_)
          have := searchLoop_mem_gt fp lq ql rest (i + 1) r hr
          simp only [beq_iff_eq]
          omega
        simp [htl]
      · have : ((i : Nat) + 1 == n) = false := by
          simp [Nat.beq_eq_true_eq] at *
          omega
        simpa [this] using searchLoop_atMostOne fp lq ql n rest (i + 1)

/-- C1: for every body and non-empty query, `searchInContent` emits per
line exactly the hit described by the spec — a line yields a result
exactly when its lowercased text contains the lowercased query, with
1-based `lineNumber` and context window
`[max(0, m-100), min(len, m+|q|+100))` around the first occurrence `m`
(original casing preserved) — and at most one result per line; on body
`"a".repeat(150) + "query" + "b".repeat(150)` searching `"query"` yields
exactly one result whose context has length at most 205 and contains
`"query"`. -/
theorem searchInContent_line_based (content query filePath : Str)
    (hq : query ≠ []) :
    searchInContent content query filePath =
        (List.enumFrom 0 (splitCh '\n' content)).filterMap
          (lineHit filePath (lowerStr query) query.length) ∧
      (∀ n, ((searchInContent content query filePath).filter
          (fun r => r.lineNumber == n)).length ≤ 1) ∧
      ((searchInContent searchExampleBody (strOf "query") (strOf "note.md")).length = 1 ∧
        ∀ r ∈ searchInContent searchExampleBody (strOf "query") (strOf "note.md"),
          r.context.length ≤ 205 ∧ includesStr (strOf "query") r.context = true) := by
  refine ⟨searchLoop_eq _ _ _ _ _, fun n => searchLoop_atMostOne _ _ _ _ _ _, ?_⟩
  constructor
  · set_option maxRecDepth 100000 in decide
  · set_option maxRecDepth 100000 in decide

/-- Witness for C1 at the spec's concrete fixture. -/
theorem searchInContent_line_based_witness :
    strOf "query" ≠ [] ∧
      (searchInContent searchExampleBody (strOf "query") (strOf "note.md")).length = 1 :=
  ⟨by decide,
    (searchInContent_line_based searchExampleBody (strOf "query") (strOf "note.md")
        (by decide)).2.2.1⟩

/-- Model of JS whitespace for `String.prototype.trim`. -/
def isJsWs (c : Char) : Bool := c.isWhitespace

/-- Model of JS `String.prototype.trim()`. -/
def jsTrim (s : Str) : Str :=
  ((s.dropWhile isJsWs).reverse.dropWhile isJsWs).reverse

/-- Model of JS `String.prototype.startsWith(p)`. -/
def strStarts (p s : Str) : Bool := p.isPrefixOf s

/-- Model of JS `String.prototype.endsWith(p)`. -/
def strEnds (p s : Str) : Bool := p.isSuffixOf s

/-- Model of JS `Map.prototype.get` over an insertion-ordered
association list with distinct keys. -/
def alistGet {α : Type} (m : List (Str × α)) (k : Str) : Option α :=
  match m with
  | [] => none
  | (k0, v) :: rest => if k0 = k then some v else alistGet rest k

/-- Exact model of a JS number produced by `Number(string)` as an
unreduced fraction `num / den` (float64 rounding is not modelled; no
claim depends on it). -/
inductive JsNum where
  | fin (num : Int) (den : Nat)
  | posInf
  | negInf
deriving DecidableEq, Repr

/-- Values of the `Frontmatter` schema
(src/vault/domain.ts:3-6): string, number, boolean, or string array. -/
inductive YamlVal where
  | str (s : Str)
  | num (n : JsNum)
  | bool (b : Bool)
  | list (items : List Str)
deriving DecidableEq, Repr

/-- Embedding of the cached `VaultFile` record
(src/vault/file-loader.ts:53-59). -/
structure VaultFile where
  path : Str
  content : Str
  frontmatter : List (Str × YamlVal)
  bytes : Nat
  lines : Nat
deriving DecidableEq, Repr

/-- Typed HTTP-style errors used by `getFileContent`. -/
inductive ApiError where
  | badRequest
  | notFound
deriving DecidableEq, Repr

/-- Filename normalization of `getFileContent`
(src/vault/service.ts:48): append `.md` unless already present. -/
def normalizeName (filename : Str) : Str :=
  if strEnds (strOf ".md") filename then filename else filename ++ strOf ".md"

/-- Embedding of `getFileContent` (src/vault/service.ts:41-60). -/
def getFileContent (cache : List (Str × VaultFile)) (filename : Str) :
    Except ApiError Str :=
  if filename = [] ∨ jsTrim filename = [] then .error .badRequest
  else
    match alistGet cache (normalizeName filename) with
    | none => .error .notFound
    | some vaultFile => .ok vaultFile.content

/-- A concrete one-entry snapshot used as witness input. -/
def demoCache : List (Str × VaultFile) :=
  [(strOf "note.md",
    { path := strOf "/v/note.md", content := strOf "hello",
      frontmatter := [], bytes := 5, lines := 1 })]

/-- C5: `getFileContent` fails with `BadRequest` exactly on
empty/whitespace names; otherwise it appends `.md` when missing, fails
with `NotFound` exactly when the normalized name is absent from the
snapshot, and returns the cached entry's body otherwise; in particular
`getContent "note"` and `getContent "note.md"` resolve identically. -/
theorem getFileContent_validation (cache : List (Str × VaultFile)) (filename : Str) :
    (getFileContent cache filename = .error .badRequest ↔ jsTrim filename = []) ∧
      (jsTrim filename ≠ [] →
        getFileContent cache filename =
          match alistGet cache (normalizeName filename) with
          | none => .error .notFound
          | some vaultFile => .ok vaultFile.content) ∧
      getFileContent cache (strOf "note") = getFileContent cache (strOf "note.md") := by
  refine ⟨?_, ?_, ?_⟩
  · constructor
    · intro h
      by_contra hne
      have hfne : ¬(filename = [] ∨ jsTrim filename = []) := by
        rcases Decidable.em (filename = []) with he | he
        · subst he; exact absurd rfl hne
        · tauto
      rw [getFileContent, if_neg hfne] at h
      cases halist : alistGet cache (normalizeName filename) <;>
        rw [halist] at h <;> simp at h
    · intro h
      have : filename = [] ∨ jsTrim filename = [] := Or.inr h
      rw [getFileContent, if_pos this]
  · intro hne
    have hfil : filename ≠ [] := by
      intro he; subst he; exact hne rfl
    rw [getFileContent, if_neg (by tauto)]
  · have hne1 : ¬(strOf "note" = [] ∨ jsTrim (strOf "note") = []) := by decide
    have hne2 : ¬(strOf "note.md" = [] ∨ jsTrim (strOf "note.md") = []) := by decide
    rw [getFileContent, getFileContent, if_neg hne1, if_neg hne2]
    have h1 : normalizeName (strOf "note") = strOf "note.md" := by decide
    have h2 : normalizeName (strOf "note.md") = strOf "note.md" := by decide
    rw [h1, h2]

/-- Witness for C5: on the one-entry demo snapshot, `"note"` passes
validation and resolves via the normalized key `"note.md"`. -/
theorem getFileContent_validation_witness :
    jsTrim (strOf "note") ≠ [] ∧
      getFileContent demoCache (strOf "note") =
        match alistGet demoCache (normalizeName (strOf "note")) with
        | none => Except.error ApiError.notFound
        | some vaultFile => Except.ok vaultFile.content :=
  ⟨by decide, (getFileContent_validation demoCache (strOf "note")).2.1 (by decide)⟩

/-- Result shape of `getFilePaths` (src/vault/service.ts:166). -/
structure FilePathsResult where
  files : List Str
  total : Nat
deriving DecidableEq, Repr

/-- Embedding of `getFilePaths` (src/vault/service.ts:155-167):
`Stream.fromIterable(allPaths).pipe(Stream.drop(offset), Stream.take(limit))`
is `List.drop` followed by `List.take` on the snapshot's key sequence. -/
def getFilePaths (cache : List (Str × VaultFile)) (limit offset : Nat) :
    FilePathsResult :=
  let allPaths := cache.map Prod.fst
  let total := allPaths.length
  { files := (allPaths.drop offset).take limit, total := total }

/-- A five-entry snapshot for the pagination fixture. -/
def fiveCache : List (Str × VaultFile) :=
  [strOf "p1.md", strOf "p2.md", strOf "p3.md", strOf "p4.md", strOf "p5.md"].map
    (fun p => (p, { path := p, content := [], frontmatter := [],
                    bytes := 0, lines := 1 }))

/-- C8: `getFilePaths(limit, offset)` always reports the full cached
count as `total`, and `files` is exactly the slice `[offset, offset+limit)`
of the key sequence in snapshot iteration order (elementwise: position `j`
of `files` holds key `offset + j` when `j < limit`, nothing otherwise);
for five paths, `listPaths(2, 1)` yields total 5 and the 2nd and 3rd
paths. -/
theorem getFilePaths_pagination (cache : List (Str × VaultFile))
    (limit offset : Nat) :
    (getFilePaths cache limit offset).total = cache.length ∧
      (∀ j, (getFilePaths cache limit offset).files[j]? =
        if j < limit then (cache.map Prod.fst)[offset + j]? else none) ∧
      getFilePaths fiveCache 2 1 =
        { files := [strOf "p2.md", strOf "p3.md"], total := 5 } := by
  refine ⟨by simp [getFilePaths], fun j => ?_, by decide⟩
  simp only [getFilePaths]
  by_cases hj : j < limit
  · rw [List.getElem?_take_of_lt hj, List.getElem?_drop]
    simp [hj]
  · simp [hj, List.getElem?_take]

/-- Folder-path normalization of `searchByFolder`
(src/vault/service.ts:180): strip at most one leading `/`. -/
def normalizeFolder (folderPath : Str) : Str :=
  if strStarts (strOf "/") folderPath then folderPath.drop 1 else folderPath

/-- Embedding of `searchByFolder` (src/vault/service.ts:174-191). -/
def searchByFolder (cache : List (Str × VaultFile)) (folderPath : Str) :
    List Str :=
  if folderPath = [] ∨ jsTrim folderPath = [] then []
  else
    (cache.map Prod.fst).filter (fun p => strStarts (normalizeFolder folderPath) p)

/-- A snapshot whose only key is `foo.md`. -/
def fooCache : List (Str × VaultFile) :=
  [(strOf "foo.md",
    { path := strOf "foo.md", content := [], frontmatter := [],
      bytes := 0, lines := 1 })]

/-- A snapshot whose only key lives under the folder `notes/`. -/
def notesCache : List (Str × VaultFile) :=
  [(strOf "notes/a.md",
    { path := strOf "notes/a.md", content := [], frontmatter := [],
      bytes := 0, lines := 1 })]

/-- C10: for every non-empty, non-whitespace prefix, `searchByFolder`
strips at most one leading `/` and returns exactly the cached paths whose
raw string starts with the normalized prefix (no path-segment check):
prefix `"fo"` matches path `"foo.md"`, and `"//notes"` normalizes only to
`"/notes"`, matching no repository-relative path. -/
theorem searchByFolder_raw_string_match (cache : List (Str × VaultFile))
    (folderPath : Str) (hne : jsTrim folderPath ≠ []) :
    (∀ p, p ∈ searchByFolder cache folderPath ↔
        p ∈ cache.map Prod.fst ∧
          strStarts (normalizeFolder folderPath) p = true) ∧
      normalizeFolder (strOf "//notes") = strOf "/notes" ∧
      searchByFolder demoCache (strOf "fo") = [] ∧
      searchByFolder fooCache (strOf "fo") = [strOf "foo.md"] ∧
      searchByFolder notesCache (strOf "//notes") = [] := by
  have hfil : ¬(folderPath = [] ∨ jsTrim folderPath = []) := by
    rcases Decidable.em (folderPath = []) with he | he
    · exfalso; apply hne; subst he; rfl
    · tauto
  refine ⟨fun p => ?_, by decide, by decide, by decide, by decide⟩
  rw [searchByFolder, if_neg hfil]
  exact List.mem_filter

/-- Witness for C10 with the non-whitespace prefix `"fo"` against the
`foo.md` snapshot. -/
theorem searchByFolder_raw_string_match_witness :
    jsTrim (strOf "fo") ≠ [] ∧
      (strOf "foo.md" ∈ searchByFolder fooCache (strOf "fo") ↔
        strOf "foo.md" ∈ fooCache.map Prod.fst ∧
          strStarts (normalizeFolder (strOf "fo")) (strOf "foo.md") = true) :=
  ⟨by decide,
    (searchByFolder_raw_string_match fooCache (strOf "fo") (by decide)).1 (strOf "foo.md")⟩

/-- A `{path, bytes}` reference as used by `largestFile`/`smallestFile`. -/
structure FileRef where
  path : Str
  bytes : Nat
deriving DecidableEq, Repr

/-- Metrics record of `getMetrics` (src/vault/service.ts:138-145). -/
structure VaultMetrics where
  totalFiles : Nat
  totalBytes : Nat
  totalLines : Nat
  averageFileSize : Nat
  largestFile : FileRef
  smallestFile : FileRef
deriving DecidableEq, Repr

/-- JS `Number.MAX_SAFE_INTEGER`, the initial `smallest.bytes`. -/
def MAX_SAFE_INTEGER : Nat := 2 ^ 53 - 1

/-- Model of `Math.round(a / b)` for naturals with `b > 0`:
round-half-up equals `⌊(2a + b) / (2b)⌋`. -/
def jsRound (a b : Nat) : Nat := (2 * a + b) / (2 * b)

/-- Accumulator of the single linear scan in `getMetrics`
(src/vault/service.ts:121-136). -/
structure MetricsAcc where
  totalBytes : Nat
  totalLines : Nat
  largest : FileRef
  smallest : FileRef

/-- The scan loop of `getMetrics` (src/vault/service.ts:126-136). -/
def metricsLoop : List (Str × VaultFile) → MetricsAcc → MetricsAcc
  | [], acc => acc
  | (path, vaultFile) :: rest, acc =>
    metricsLoop rest
      { totalBytes := acc.totalBytes + vaultFile.bytes
        totalLines := acc.totalLines + vaultFile.lines
        largest :=
          if vaultFile.bytes > acc.largest.bytes then ⟨path, vaultFile.bytes⟩
          else acc.largest
        smallest :=
          if vaultFile.bytes < acc.smallest.bytes then ⟨path, vaultFile.bytes⟩
          else acc.smallest }

/-- Embedding of `getMetrics` (src/vault/service.ts:117-146): loop from
`largest = {path:'', bytes:0}` and `smallest = {path:'', MAX_SAFE_INTEGER}`,
then replace a still-empty path (JS string truthiness) by the
`{path:'none', bytes:0}` sentinel. -/
def getMetrics (files : List (Str × VaultFile)) : VaultMetrics :=
  let acc := metricsLoop files
    { totalBytes := 0, totalLines := 0,
      largest := ⟨[], 0⟩, smallest := ⟨[], MAX_SAFE_INTEGER⟩ }
  { totalFiles := files.length
    totalBytes := acc.totalBytes
    totalLines := acc.totalLines
    averageFileSize :=
      if 0 < files.length then jsRound acc.totalBytes files.length else 0
    largestFile := if acc.largest.path ≠ [] then acc.largest else ⟨strOf "none", 0⟩
    smallestFile := if acc.smallest.path ≠ [] then acc.smallest else ⟨strOf "none", 0⟩ }

/-- The `largest` component of the scan, isolated. -/
def foldLargest (cur : FileRef) : List (Str × VaultFile) → FileRef
  | [] => cur
  | e :: rest =>
    foldLargest (if e.2.bytes > cur.bytes then ⟨e.1, e.2.bytes⟩ else cur) rest

/-- The `smallest` component of the scan, isolated. -/
def foldSmallest (cur : FileRef) : List (Str × VaultFile) → FileRef
  | [] => cur
  | e :: rest =>
    foldSmallest (if e.2.bytes < cur.bytes then ⟨e.1, e.2.bytes⟩ else cur) rest

theorem metricsLoop_proj :
    ∀ (files : List (Str × VaultFile)) (acc : MetricsAcc),
      (metricsLoop files acc).totalBytes =
          acc.totalBytes + (files.map (fun e => e.2.bytes)).sum ∧
        (metricsLoop files acc).totalLines =
          acc.totalLines + (files.map (fun e => e.2.lines)).sum ∧
        (metricsLoop files acc).largest = foldLargest acc.largest files ∧
        (metricsLoop files acc).smallest = foldSmallest acc.smallest files
  | [], acc => by simp [metricsLoop, foldLargest, foldSmallest]
  | (path, vaultFile) :: rest, acc => by
    obtain ⟨h1, h2, h3, h4⟩ := metricsLoop_proj rest
      { totalBytes := acc.totalBytes + vaultFile.bytes
        totalLines := acc.totalLines + vaultFile.lines
        largest :=
          if vaultFile.bytes > acc.largest.bytes then ⟨path, vaultFile.bytes⟩
          else acc.largest
        smallest :=
          if vaultFile.bytes < acc.smallest.bytes then ⟨path, vaultFile.bytes⟩
          else acc.smallest }
    refine ⟨?_, ?_, ?_, ?_⟩
    · rw [metricsLoop, h1]; simp; ring
    · rw [metricsLoop, h2]; simp; ring
    · rw [metricsLoop, h3]; rfl
    · rw [metricsLoop, h4]; rfl

theorem foldLargest_char :
    ∀ (files : List (Str × VaultFile)) (cur : FileRef),
      (foldLargest cur files = cur ∧ ∀ x ∈ files, x.2.bytes ≤ cur.bytes) ∨
        (∃ l₁ e l₂, files = l₁ ++ e :: l₂ ∧
          foldLargest cur files = ⟨e.1, e.2.bytes⟩ ∧
          cur.bytes < e.2.bytes ∧
          (∀ x ∈ l₁, x.2.bytes < e.2.bytes) ∧
          (∀ x ∈ l₂, x.2.bytes ≤ e.2.bytes))
  | [], cur => Or.inl ⟨rfl, by simp⟩
  | a :: rest, cur => by
    by_cases h : a.2.bytes > cur.bytes
    · have hstep : foldLargest cur (a :: rest) = foldLargest ⟨a.1, a.2.bytes⟩ rest := by
        rw [foldLargest, if_pos h]
      rcases foldLargest_char rest ⟨a.1, a.2.bytes⟩ with ⟨heq, hall⟩ | ⟨l₁, e, l₂, hsp, hres, hgt, hl1, hl2⟩
      · refine Or.inr ⟨[], a, rest, by simp, ?_, h, by simp, ?_⟩
        · rw [hstep, heq]
        · intro x hx; exact hall x hx
      · refine Or.inr ⟨a :: l₁, e, l₂, by rw [hsp]; rfl, ?_, ?_, ?_, hl2⟩
        · rw [hstep, hres]
        · exact lt_trans h hgt
        · intro x hx
          rcases List.mem_cons.mp hx with hxa | hxl
          · subst hxa; exact hgt
          · exact hl1 x hxl
    · have hstep : foldLargest cur (a :: rest) = foldLargest cur rest := by
        rw [foldLargest, if_neg h]
      rcases foldLargest_char rest cur with ⟨heq, hall⟩ | ⟨l₁, e, l₂, hsp, hres, hgt, hl1, hl2⟩
      · refine Or.inl ⟨by rw [hstep, heq], ?_⟩
        intro x hx
        rcases List.mem_cons.mp hx with hxa | hxl
        · subst hxa; omega
        · exact hall x hxl
      · refine Or.inr ⟨a :: l₁, e, l₂, by rw [hsp]; rfl, by rw [hstep, hres], hgt, ?_, hl2⟩
        intro x hx
        rcases List.mem_cons.mp hx with hxa | hxl
        · subst hxa; omega
        · exact hl1 x hxl

theorem foldSmallest_char :
    ∀ (files : List (Str × VaultFile)) (cur : FileRef),
      (foldSmallest cur files = cur ∧ ∀ x ∈ files, cur.bytes ≤ x.2.bytes) ∨
        (∃ l₁ e l₂, files = l₁ ++ e :: l₂ ∧
          foldSmallest cur files = ⟨e.1, e.2.bytes⟩ ∧
          e.2.bytes < cur.bytes ∧
          (∀ x ∈ l₁, e.2.bytes < x.2.bytes) ∧
          (∀ x ∈ l₂, e.2.bytes ≤ x.2.bytes))
  | [], cur => Or.inl ⟨rfl, by simp⟩
  | a :: rest, cur => by
    by_cases h : a.2.bytes < cur.bytes
    · have hstep : foldSmallest cur (a :: rest) = foldSmallest ⟨a.1, a.2.bytes⟩ rest := by
        rw [foldSmallest, if_pos h]
      rcases foldSmallest_char rest ⟨a.1, a.2.bytes⟩ with ⟨heq, hall⟩ | ⟨l₁, e, l₂, hsp, hres, hgt, hl1, hl2⟩
      · refine Or.inr ⟨[], a, rest, by simp, ?_, h, by simp, ?_⟩
        · rw [hstep, heq]
        · intro x hx; exact hall x hx
      · refine Or.inr ⟨a :: l₁, e, l₂, by rw [hsp]; rfl, ?_, ?_, ?_, hl2⟩
        · rw [hstep, hres]
        · exact lt_trans hgt h
        · intro x hx
          rcases List.mem_cons.mp hx with hxa | hxl
          · subst hxa; exact hgt
          · exact hl1 x hxl
    · have hstep : foldSmallest cur (a :: rest) = foldSmallest cur rest := by
        rw [foldSmallest, if_neg h]
      rcases foldSmallest_char rest cur with ⟨heq, hall⟩ | ⟨l₁, e, l₂, hsp, hres, hgt, hl1, hl2⟩
      · refine Or.inl ⟨by rw [hstep, heq], ?_⟩
        intro x hx
        rcases List.mem_cons.mp hx with hxa | hxl
        · subst hxa; omega
        · exact hall x hxl
      · refine Or.inr ⟨a :: l₁, e, l₂, by rw [hsp]; rfl, by rw [hstep, hres], hgt, ?_, hl2⟩
        intro x hx
        rcases List.mem_cons.mp hx with hxa | hxl
        · subst hxa; omega
        · exact hl1 x hxl

/-- A non-empty snapshot whose only entry has zero bytes. -/
def zeroByteCache : List (Str × VaultFile) :=
  [(strOf "a.md",
    { path := strOf "a.md", content := [], frontmatter := [],
      bytes := 0, lines := 1 })]

/-- C4 counterexample: on the non-empty snapshot `[("a.md", bytes 0)]`,
`getMetrics` returns the `{path:"none", bytes:0}` sentinel as
`largestFile` — "none" names no cached entry — because the scan only
updates `largest` on a strict `>` against the initial `bytes:0`. -/
theorem getMetrics_sentinel_on_nonempty :
    zeroByteCache ≠ [] ∧
      (getMetrics zeroByteCache).largestFile = ⟨strOf "none", 0⟩ ∧
      alistGet zeroByteCache (strOf "none") = none ∧
      (getMetrics zeroByteCache).smallestFile = ⟨strOf "a.md", 0⟩ := by
  decide

/-- C4 (amended): `getMetrics` returns the entry count and the byte/line
sums, `averageFileSize = round(totalBytes/totalFiles)` (0 when empty), and
`largestFile`/`smallestFile` chosen by a linear scan with strict `>`/`<`
(first-encountered entry wins ties); an empty snapshot yields all-zero
totals and `{path:"none", bytes:0}` sentinels. For a non-empty snapshot
(with non-empty keys), `largestFile` names a present entry provided some
entry has non-zero byte size — when every entry has zero bytes it is the
sentinel — and `smallestFile` names a present entry provided some entry
has byte size below `Number.MAX_SAFE_INTEGER`. -/
theorem getMetrics_characterization (files : List (Str × VaultFile))
    (hpaths : ∀ e ∈ files, e.1 ≠ []) :
    (getMetrics files).totalFiles = files.length ∧
      (getMetrics files).totalBytes = (files.map (fun e => e.2.bytes)).sum ∧
      (getMetrics files).totalLines = (files.map (fun e => e.2.lines)).sum ∧
      (getMetrics files).averageFileSize =
        (if files.length = 0 then 0
          else jsRound (files.map (fun e => e.2.bytes)).sum files.length) ∧
      (files = [] →
        (getMetrics files).largestFile = ⟨strOf "none", 0⟩ ∧
          (getMetrics files).smallestFile = ⟨strOf "none", 0⟩) ∧
      ((∃ e ∈ files, 0 < e.2.bytes) →
        ∃ l₁ e l₂, files = l₁ ++ e :: l₂ ∧
          (getMetrics files).largestFile = ⟨e.1, e.2.bytes⟩ ∧
          (∀ x ∈ l₁, x.2.bytes < e.2.bytes) ∧
          (∀ x ∈ l₂, x.2.bytes ≤ e.2.bytes)) ∧
      ((∀ e ∈ files, e.2.bytes = 0) →
        (getMetrics files).largestFile = ⟨strOf "none", 0⟩) ∧
      ((∃ e ∈ files, e.2.bytes < MAX_SAFE_INTEGER) →
        ∃ l₁ e l₂, files = l₁ ++ e :: l₂ ∧
          (getMetrics files).smallestFile = ⟨e.1, e.2.bytes⟩ ∧
          (∀ x ∈ l₁, e.2.bytes < x.2.bytes) ∧
          (∀ x ∈ l₂, e.2.bytes ≤ x.2.bytes)) := by
  obtain ⟨hb, hl, hlg, hsm⟩ := metricsLoop_proj files
    { totalBytes := 0, totalLines := 0,
      largest := ⟨[], 0⟩, smallest := ⟨[], MAX_SAFE_INTEGER⟩ }
  refine ⟨rfl, ?_, ?_, ?_, ?_, ?_, ?_, ?_⟩
  · simpa [getMetrics] using hb
  · simpa [getMetrics] using hl
  · simp only [getMetrics]
    rcases Nat.eq_zero_or_pos files.length with h0 | h0
    · simp [h0]
    · rw [if_pos h0, if_neg (by omega), hb]
      simp
  · intro hemp
    subst hemp
    exact ⟨by decide, by decide⟩
  · intro ⟨e0, he0, hpos⟩
    rcases foldLargest_char files ⟨[], 0⟩ with ⟨_, hall⟩ | ⟨l₁, e, l₂, hsp, hres, _, hl1, hl2⟩
    · exfalso
      have := hall e0 he0
      simp at this
      omega
    · refine ⟨l₁, e, l₂, hsp, ?_, hl1, hl2⟩
      have hmem : e ∈ files := by rw [hsp]; simp
      have hne : (⟨e.1, e.2.bytes⟩ : FileRef).path ≠ [] := hpaths e hmem
      simp only [getMetrics, hlg, hres]
      rw [if_pos hne]
  · intro hzero
    rcases foldLargest_char files ⟨[], 0⟩ with ⟨heq, _⟩ | ⟨l₁, e, l₂, hsp, _, hgt, _, _⟩
    · simp only [getMetrics, hlg, heq]
      rfl
    · have hmem : e ∈ files := by rw [hsp]; simp
      have := hzero e hmem
      simp at hgt
      omega
  · intro ⟨e0, he0, hlt⟩
    rcases foldSmallest_char files ⟨[], MAX_SAFE_INTEGER⟩ with ⟨_, hall⟩ | ⟨l₁, e, l₂, hsp, hres, _, hl1, hl2⟩
    · exfalso
      have := hall e0 he0
      simp only [] at this
      omega
    · refine ⟨l₁, e, l₂, hsp, ?_, hl1, hl2⟩
      have hmem : e ∈ files := by rw [hsp]; simp
      have hne : (⟨e.1, e.2.bytes⟩ : FileRef).path ≠ [] := hpaths e hmem
      simp only [getMetrics, hsm, hres]
      rw [if_pos hne]

/-- Witness for C4's amended theorem on the one-entry demo snapshot
(5 bytes), discharging the non-empty-key and non-zero-byte hypotheses. -/
theorem getMetrics_characterization_witness :
    (∀ e ∈ demoCache, e.1 ≠ []) ∧
      (∃ e ∈ demoCache, 0 < e.2.bytes) ∧
      ∃ l₁ e l₂, demoCache = l₁ ++ e :: l₂ ∧
        (getMetrics demoCache).largestFile = ⟨e.1, e.2.bytes⟩ ∧
        (∀ x ∈ l₁, x.2.bytes < e.2.bytes) ∧
        (∀ x ∈ l₂, x.2.bytes ≤ e.2.bytes) := by
  refine ⟨by decide, by decide, ?_⟩
  exact (getMetrics_characterization demoCache (by decide)).2.2.2.2.2.1 (by decide)

/-- Decimal digit value. -/
def digVal (c : Char) : Option Nat :=
  if '0' ≤ c ∧ c ≤ '9' then some (c.toNat - '0'.toNat) else none

/-- Digit value in a given base (2, 8 or 16; letters case-insensitive). -/
def digValBase (base : Nat) (c : Char) : Option Nat :=
  match digVal c with
  | some d => if d < base then some d else none
  | none =>
    if base = 16 ∧ 'a' ≤ c.toLower ∧ c.toLower ≤ 'f' then
      some (c.toLower.toNat - 'a'.toNat + 10)
    else none

/-- Longest run of decimal digits at the head of the string. -/
def takeDigits : Str → List Nat × Str
  | [] => ([], [])
  | c :: t =>
    match digVal c with
    | some d => let (ds, r) := takeDigits t; (d :: ds, r)
    | none => ([], c :: t)

/-- Numeric value of a digit list in a base. -/
def natOfDigits (base : Nat) (ds : List Nat) : Nat :=
  ds.foldl (fun a d => a * base + d) 0

/-- Optional `ExponentPart` anchored at the string's end: empty input
means exponent 0; otherwise `e`/`E`, an optional sign, and at least one
digit consuming the whole rest. -/
def parseExpOpt (s : Str) : Option Int :=
  match s with
  | [] => some 0
  | c :: r =>
    if c = 'e' ∨ c = 'E' then
      match r with
      | '+' :: r2 =>
        if r2 ≠ [] ∧ r2.all (fun d => (digVal d).isSome) then
          some (natOfDigits 10 ((takeDigits r2).1) : Int)
        else none
      | '-' :: r2 =>
        if r2 ≠ [] ∧ r2.all (fun d => (digVal d).isSome) then
          some (-(natOfDigits 10 ((takeDigits r2).1) : Int))
        else none
      | r2 =>
        if r2 ≠ [] ∧ r2.all (fun d => (digVal d).isSome) then
          some (natOfDigits 10 ((takeDigits r2).1) : Int)
        else none
    else none

/-- `StrUnsignedDecimalLiteral` of the ECMAScript `ToNumber` grammar:
`Infinity`, or digits with optional fraction and exponent, consuming the
whole string. The exact value `(mantissa · 10^e) / 10^fracLen` is kept as
an unreduced fraction. -/
def parseUnsignedDec (neg : Bool) (r : Str) : Option JsNum :=
  if r = strOf "Infinity" then some (if neg then .negInf else .posInf)
  else
    let (ds, r1) := takeDigits r
    let core :=
      match r1 with
      | '.' :: r2 =>
        let (fs, r3) := takeDigits r2
        if ds = [] ∧ fs = [] then none
        else (parseExpOpt r3).map (fun e => (natOfDigits 10 ds, fs, e))
      | _ =>
        if ds = [] then none
        else (parseExpOpt r1).map (fun e => (natOfDigits 10 ds, ([] : List Nat), e))
    core.map (fun p =>
      let mant := p.1
      let fs := p.2.1
      let e := p.2.2
      let mantAll : Nat := mant * 10 ^ fs.length + natOfDigits 10 fs
      let num : Int := if 0 ≤ e then (mantAll * 10 ^ e.toNat : Nat) else (mantAll : Nat)
      let den : Nat := if 0 ≤ e then 10 ^ fs.length else 10 ^ fs.length * 10 ^ (-e).toNat
      .fin (if neg then -num else num) den)

/-- Non-decimal integer literal body in a base, consuming the rest. -/
def parseRadix (base : Nat) (rest : Str) : Option JsNum :=
  if rest ≠ [] ∧ rest.all (fun c => (digValBase base c).isSome) then
    some (.fin (natOfDigits base (rest.map (fun c => (digValBase base c).getD 0))) 1)
  else none

/-- Model of JS `Number(string)` (ECMAScript `ToNumber` on strings,
exact over ℚ; float64 rounding not modelled): trimmed empty input is 0,
`0x`/`0o`/`0b` literals are unsigned, otherwise an optionally signed
decimal literal or `Infinity`; anything else is NaN (`none`). -/
def jsToNumber (s : Str) : Option JsNum :=
  let t := jsTrim s
  match t with
  | [] => some (.fin 0 1)
  | '0' :: 'x' :: rest => parseRadix 16 rest
  | '0' :: 'X' :: rest => parseRadix 16 rest
  | '0' :: 'o' :: rest => parseRadix 8 rest
  | '0' :: 'O' :: rest => parseRadix 8 rest
  | '0' :: 'b' :: rest => parseRadix 2 rest
  | '0' :: 'B' :: rest => parseRadix 2 rest
  | '+' :: r => parseUnsignedDec false r
  | '-' :: r => parseUnsignedDec true r
  | r => parseUnsignedDec false r

/-- Model of JS `s.slice(1, -1)`. -/
def sliceInner (s : Str) : Str := (s.drop 1).dropLast

/-- Model of `item.replace(/^"(.*)"$/, "$1")`: strip one pair of
surrounding double quotes; `.` does not match a newline, so a quoted item
containing a newline is left unchanged. -/
def stripItemQuotes (s : Str) : Str :=
  if 2 ≤ s.length ∧ strStarts (strOf "\"") s ∧ strEnds (strOf "\"") s ∧
      ¬('\n' ∈ sliceInner s) then
    sliceInner s
  else s

/-- Embedding of `parseYamlValue` (src/vault/domain.ts:17-47): empty →
`""`; quoted → the literal inner string; `true`/`false` → boolean;
`Number(valueStr)` not NaN → that number; `[...]` → comma-split items,
each trimmed and quote-stripped; otherwise the literal string. -/
def parseYamlValue (valueStr : Str) : YamlVal :=
  if valueStr = [] then .str []
  else if strStarts (strOf "\"") valueStr ∧ strEnds (strOf "\"") valueStr then
    .str (sliceInner valueStr)
  else if valueStr = strOf "true" then .bool true
  else if valueStr = strOf "false" then .bool false
  else if (jsToNumber valueStr).isSome ∧ valueStr ≠ [] then
    .num ((jsToNumber valueStr).getD (.fin 0 1))
  else if strStarts (strOf "[") valueStr ∧ strEnds (strOf "]") valueStr then
    let arrayContent := jsTrim (sliceInner valueStr)
    if arrayContent = [] then .list []
    else .list ((splitCh ',' arrayContent).map (fun item => stripItemQuotes (jsTrim item)))
  else .str valueStr

/-- C7: `parseYamlValue` decodes a trimmed value with the precedence
quoted-string → boolean → number → bracketed list → literal string: a
double-quoted value is the literal inner string (so `"true"` decodes to
the string `true`, not the boolean), `true`/`false` decode to booleans, a
value accepted by JS `Number` decodes to that number, a bracketed value
decodes to the comma-split items each trimmed and quote-stripped (a
sequence of strings by construction of `YamlVal.list`), and anything else
stays the literal string. -/
theorem parseYamlValue_precedence :
    (∀ v : Str, v ≠ [] →
      strStarts (strOf "\"") v = true → strEnds (strOf "\"") v = true →
        parseYamlValue v = .str (sliceInner v)) ∧
      parseYamlValue (strOf "\"true\"") = .str (strOf "true") ∧
      (parseYamlValue (strOf "true") = .bool true ∧
        parseYamlValue (strOf "false") = .bool false) ∧
      (∀ (v : Str) (n : JsNum), v ≠ [] →
        ¬(strStarts (strOf "\"") v = true ∧ strEnds (strOf "\"") v = true) →
        v ≠ strOf "true" → v ≠ strOf "false" →
        jsToNumber v = some n → parseYamlValue v = .num n) ∧
      (∀ v : Str, v ≠ [] →
        ¬(strStarts (strOf "\"") v = true ∧ strEnds (strOf "\"") v = true) →
        v ≠ strOf "true" → v ≠ strOf "false" → jsToNumber v = none →
        strStarts (strOf "[") v = true → strEnds (strOf "]") v = true →
        parseYamlValue v =
          (if jsTrim (sliceInner v) = [] then .list []
            else .list ((splitCh ',' (jsTrim (sliceInner v))).map
              (fun item => stripItemQuotes (jsTrim item))))) ∧
      (parseYamlValue (strOf "[a, \"b\"]") = .list [strOf "a", strOf "b"] ∧
        parseYamlValue (strOf "42") = .num (.fin 42 1) ∧
        parseYamlValue (strOf "3,5") = .str (strOf "3,5")) := by
  refine ⟨?_, by decide, ⟨by decide, by decide⟩, ?_, ?_, by decide, by decide, by decide⟩
  · intro v hne h1 h2
    rw [parseYamlValue, if_neg hne, if_pos ⟨h1, h2⟩]
  · intro v n hne hq ht hf hnum
    rw [parseYamlValue, if_neg hne, if_neg hq, if_neg ht, if_neg hf,
      if_pos ⟨by rw [hnum]; rfl, hne⟩, hnum]
    rfl
  · intro v hne hq ht hf hnum h1 h2
    rw [parseYamlValue, if_neg hne, if_neg hq, if_neg ht, if_neg hf,
      if_neg (by rw [hnum]; simp), if_pos ⟨h1, h2⟩]

/-- Witness for C7: the literal `"7"` (unquoted) decodes through the
number branch to the number 7. -/
theorem parseYamlValue_precedence_witness :
    strOf "7" ≠ [] ∧ jsToNumber (strOf "7") = some (.fin 7 1) ∧
      parseYamlValue (strOf "7") = .num (.fin 7 1) :=
  ⟨by decide, by decide,
    parseYamlValue_precedence.2.2.2.1 (strOf "7") (.fin 7 1) (by decide) (by decide)
      (by decide) (by decide) (by decide)⟩

/-- JS values as returned by the external `YAML.load` (js-yaml), which
`parseYamlValue` of frontmatter.functions.ts wraps with a catch-all; kept
abstract in the theorems below. -/
inductive JsValue where
  | str (s : Str)
  | num (n : JsNum)
  | bool (b : Bool)
  | arr (vs : List JsValue)
  | null
  | undef

/-- All ways to match `\s*\n` at the head of a string: each element is
the suffix after one all-whitespace run ending in `\n`, listed with the
shortest consumed prefix first (JS `\s` is modelled by ASCII whitespace). -/
def wsNlSplits : Str → List Str
  | [] => []
  | c :: t =>
    (if c = '\n' then [t] else []) ++ (if isJsWs c then wsNlSplits t else [])

/-- Lazy scan for `([\s\S]*?)\n---\s*\n` : returns the shortest group-1
prefix followed by `\n---`, an all-whitespace run, and `\n`; the inner
`\s*` is greedy, so the longest valid run wins for the body split. -/
def fmMiddle : Str → Option (Str × Str)
  | '\n' :: '-' :: '-' :: '-' :: rest =>
    match (wsNlSplits rest).reverse with
    | body :: _ => some ([], body)
    | [] => (fmMiddle ('-' :: '-' :: '-' :: rest)).map (fun p => ('\n' :: p.1, p.2))
  | [] => none
  | c :: t => (fmMiddle t).map (fun p => (c :: p.1, p.2))

/-- Backtracking model of
`/^---\s*\n([\s\S]*?)\n---\s*\n([\s\S]*)$/.exec(content)`
(frontmatter.functions.ts:14-15): the opening `\s*` is greedy (longest
candidates first), the metadata group is lazy, the closing `\s*` greedy;
returns (group 1, group 2) of the match JS would produce, `none` when the
pattern does not match at the start of the text. -/
def fmMatch (s : Str) : Option (Str × Str) :=
  match s with
  | '-' :: '-' :: '-' :: rest => ((wsNlSplits rest).reverse).findSome? fmMiddle
  | _ => none

/-- UTF-8 byte length, the model of `new TextEncoder().encode(s).length`. -/
def utf8Len (s : Str) : Nat := (s.map Char.utf8Size).sum

/-- Model of `s.split('\n').length`. -/
def jsLineCount (s : Str) : Nat := (splitCh '\n' s).length

/-- One metadata line of the frontmatter block
(frontmatter.functions.ts:31-43): skip blank and `#`-comment lines and
lines without a colon; split at the first colon; trim key and value;
decode the value with the (abstract) `YAML.load`-based decoder `d`. -/
def parseFMLine (d : Str → JsValue) (line : Str) : Option (Str × JsValue) :=
  let trimmedLine := jsTrim line
  if trimmedLine = [] then none
  else if strStarts (strOf "#") trimmedLine then none
  else
    match indexOfStr (strOf ":") trimmedLine with
    | none => none
    | some colonIndex =>
      let key := jsTrim (trimmedLine.take colonIndex)
      let valueStr := jsTrim (trimmedLine.drop (colonIndex + 1))
      some (key, d valueStr)

/-- Model of one `Object.fromEntries` update: the value of a repeated key
is overwritten in place, insertion order keeps the first occurrence. -/
def setEntry {α : Type} (m : List (Str × α)) (k : Str) (v : α) : List (Str × α) :=
  match m with
  | [] => [(k, v)]
  | (k0, v0) :: rest => if k0 = k then (k0, v) :: rest else (k0, v0) :: setEntry rest k v

/-- Model of `Object.fromEntries`. -/
def fromEntries {α : Type} (entries : List (Str × α)) : List (Str × α) :=
  entries.foldl (fun m e => setEntry m e.1 e.2) []

/-- String extraction for `Schema.Array(Schema.String)`. -/
def strsOf : List JsValue → Option (List Str)
  | [] => some []
  | .str s :: t => (strsOf t).map (s :: ·)
  | _ => none

/-- One value of `Schema.decodeUnknown(Frontmatter)`
(src/vault/domain.ts:3-6): a value passes exactly when it is a string,
number, boolean, or array of strings. -/
def validFMValue : JsValue → Option YamlVal
  | .str s => some (.str s)
  | .num n => some (.num n)
  | .bool b => some (.bool b)
  | .arr vs => (strsOf vs).map (fun ss => .list ss)
  | .null => none
  | .undef => none

/-- Model of `Schema.decodeUnknown(Frontmatter)` over the whole record. -/
def decodeFrontmatter (entries : List (Str × JsValue)) :
    Option (List (Str × YamlVal)) :=
  match entries with
  | [] => some []
  | (k, v) :: rest =>
    match validFMValue v with
    | none => none
    | some w => (decodeFrontmatter rest).map ((k, w) :: ·)

/-- Embedding of `parseFrontmatter` (frontmatter.functions.ts:11-53),
parametrized by the external value decoder `d` (the `YAML.load` wrapper,
which never throws thanks to its catch-all): no regex match → empty
metadata and the whole text as body; empty group 1 → empty metadata and
group 2 as body; otherwise decode the lines and validate against the
`Frontmatter` schema, failing (`ParseError`) when validation fails. -/
def parseFrontmatter (d : Str → JsValue) (content : Str) :
    Except Unit (List (Str × YamlVal) × Str) :=
  match fmMatch content with
  | none => .ok ([], content)
  | some (frontmatterStr, mainContent) =>
    if frontmatterStr = [] then .ok ([], mainContent)
    else
      match decodeFrontmatter
          (fromEntries ((splitCh '\n' frontmatterStr).filterMap (parseFMLine d))) with
      | some frontmatter => .ok (frontmatter, mainContent)
      | none => .error ()

/-- Embedding of `loadFile` (src/vault/file-loader.ts:15-62): the read
result is `none` on a read error (a `FileReadError` that propagates);
on a successful read, a frontmatter parse error is caught, a warning is
logged (the `Bool` of the result), and the file falls back to empty
frontmatter with the raw text as content; `relativeOf` stands for
`path.relative(config.vaultPath, ·)`. -/
def loadFile (d : Str → JsValue) (relativeOf : Str → Str) (filePath : Str)
    (readResult : Option Str) : Except Unit (Str × VaultFile × Bool) :=
  match readResult with
  | none => .error ()
  | some content =>
    let parsed :=
      match parseFrontmatter d content with
      | .ok p => (p, false)
      | .error _ => ((([] : List (Str × YamlVal)), content), true)
    .ok (relativeOf filePath,
      { path := filePath, content := parsed.1.2, frontmatter := parsed.1.1,
        bytes := utf8Len parsed.1.2, lines := jsLineCount parsed.1.2 },
      parsed.2)

/-- C6: parsing never fails the load — when the marker pattern does not
match at the start, the parser returns empty metadata and the whole text
as body; and whenever value decoding or schema validation of a present
metadata block fails, `loadFile` still succeeds, producing empty metadata
and the original whole text (marker block included) as body, with the
failure logged at the point of catch; a successfully read file always
loads. -/
theorem parseFrontmatter_soft_fail (d : Str → JsValue) (text : Str)
    (relativeOf : Str → Str) (filePath : Str) :
    (fmMatch text = none → parseFrontmatter d text = .ok ([], text)) ∧
      (parseFrontmatter d text = .error () →
        loadFile d relativeOf filePath (some text) =
          .ok (relativeOf filePath,
            { path := filePath, content := text, frontmatter := [],
              bytes := utf8Len text, lines := jsLineCount text }, true)) ∧
      ∃ out, loadFile d relativeOf filePath (some text) = .ok out := by
  refine ⟨?_, ?_, ?_⟩
  · intro h
    rw [parseFrontmatter, h]
  · intro h
    rw [loadFile, h]
  · cases h : parseFrontmatter d text with
    | ok p => exact ⟨_, by rw [loadFile, h]⟩
    | error e => exact ⟨_, by rw [loadFile, h]⟩

/-- Witness for C6: a decoder that returns `null` (as `YAML.load` does
for an empty value) makes schema validation fail on `key: v`, and the
load falls back to the original text. -/
theorem parseFrontmatter_soft_fail_witness :
    parseFrontmatter (fun _ => JsValue.null) (strOf "---\nkey: v\n---\nbody") =
        .error () ∧
      loadFile (fun _ => JsValue.null) (fun p => p) (strOf "a.md")
          (some (strOf "---\nkey: v\n---\nbody")) =
        .ok (strOf "a.md",
          { path := strOf "a.md", content := strOf "---\nkey: v\n---\nbody",
            frontmatter := [],
            bytes := utf8Len (strOf "---\nkey: v\n---\nbody"),
            lines := jsLineCount (strOf "---\nkey: v\n---\nbody") }, true) :=
  ⟨by rfl,
    (parseFrontmatter_soft_fail (fun _ => JsValue.null)
        (strOf "---\nkey: v\n---\nbody") (fun p => p) (strOf "a.md")).2.1
      (by rfl)⟩

/-- Model of the on-disk tree rooted at the vault directory: files with
content, directories with named entries, or an entry whose
`readDirectory`/`stat` fails (`err`). -/
inductive FS where
  | file (content : Str)
  | dir (entries : List (Str × FS))
  | err

/-- Filesystem paths as segment lists; `path.join(dir, entry)` is
`dir ++ [entry]` and `path.relative(vaultPath, p)` is
`p.drop vaultPath.length`. -/
abbrev FsPath := List Str

mutual
/-- Embedding of `walkDirectory` (src/vault-cache/service.ts:9-39):
collect `.md` files recursively, skipping entries whose name contains an
ignore pattern (default `[".obsidian"]`); any read or stat error makes
the surrounding directory contribute zero files (`catchAll`), without
aborting sibling directories. -/
def walkDirectory (ignorePatterns : List Str) : FS → FsPath → List FsPath
  | .file _, _ => []
  | .err, _ => []
  | .dir entries, dirPath =>
    match walkEntries ignorePatterns entries dirPath with
    | some files => files
    | none => []

/-- Entry loop of `walkDirectory`; `none` signals a stat error aborting
the enclosing directory (caught by its `catchAll`). -/
def walkEntries (ignorePatterns : List Str) :
    List (Str × FS) → FsPath → Option (List FsPath)
  | [], _ => some []
  | (entry, sub) :: rest, dirPath =>
    if ignorePatterns.any (fun pattern => includesStr pattern entry) then
      walkEntries ignorePatterns rest dirPath
    else
      match sub with
      | .err => none
      | .dir _ =>
        (walkEntries ignorePatterns rest dirPath).map
          (fun tl => walkDirectory ignorePatterns sub (dirPath ++ [entry]) ++ tl)
      | .file _ =>
        (walkEntries ignorePatterns rest dirPath).map
          (fun tl =>
            (if strEnds (strOf ".md") entry then [dirPath ++ [entry]] else []) ++ tl)
end

/-- Resolve a vault-relative path in the tree. -/
def resolveFS : FS → FsPath → Option FS
  | fs, [] => some fs
  | .dir entries, seg :: restPath =>
    match alistGet entries seg with
    | some sub => resolveFS sub restPath
    | none => none
  | .file _, _ :: _ => none
  | .err, _ :: _ => none

/-- Embedding of `loadFileContent` (src/vault-cache/service.ts:41-42):
`readFileString` with a catch-all returning `""`; takes the path relative
to the tree's root. -/
def loadFileContent (root : FS) (relPath : FsPath) : Str :=
  match resolveFS root relPath with
  | some (.file content) => content
  | _ => []

/-- Embedding of `loadAllFiles` (src/vault-cache/service.ts:44-64): walk
from the vault path, then read every discovered file (`Effect.forEach`
with `concurrency: 10` preserves result order) into a
relative-path → content map; `root` is the tree at `vaultPath`. -/
def loadAllFiles (root : FS) (vaultPath : FsPath) : List (FsPath × Str) :=
  let files := walkDirectory [strOf ".obsidian"] root vaultPath
  files.map (fun filePath =>
    (filePath.drop vaultPath.length,
      loadFileContent root (filePath.drop vaultPath.length)))

/-- The snapshot holder (`cacheRef`). -/
structure CacheState where
  cache : List (FsPath × Str)
deriving DecidableEq

/-- Embedding of `reload` (src/vault-cache/service.ts:240-251): re-run
`loadAllFiles` and `Ref.set` the whole snapshot. -/
def reloadVaultCache (root : FS) (vaultPath : FsPath) (_s : CacheState) :
    CacheState :=
  { cache := loadAllFiles root vaultPath }

/-- Embedding of `reload` (src/vault/service.ts:106-115): it reads the
current `cacheRef` and logs "Cache manually reloaded with N files", but
never invokes the loader nor writes the snapshot — the state is returned
unchanged. -/
def reloadVaultService (s : CacheState) : CacheState := s

/-- A one-file vault used to exercise the reload paths. -/
def demoFS : FS := .dir [(strOf "a.md", .file (strOf "hi"))]

/-- C3: the vault-cache `reload` re-runs the bulk loader and swaps the
whole snapshot, and doing it twice with an unchanged filesystem yields the
identical snapshot both times; but the `VaultService.reload` of
src/vault/service.ts leaves the snapshot untouched (it only logs), so on
a vault containing `a.md` with a stale empty cache it diverges from the
freshly loaded map. -/
theorem reload_rerun_and_idempotence :
    (∀ (root : FS) (vaultPath : FsPath) (s : CacheState),
        reloadVaultCache root vaultPath (reloadVaultCache root vaultPath s) =
          reloadVaultCache root vaultPath s) ∧
      (reloadVaultCache demoFS [] { cache := [] }).cache =
        [([strOf "a.md"], strOf "hi")] ∧
      reloadVaultService { cache := [] } = { cache := ([] : List (FsPath × Str)) } ∧
      (reloadVaultService { cache := [] }).cache ≠
        (reloadVaultCache demoFS [] { cache := [] }).cache := by
  refine ⟨fun root vaultPath s => rfl, by rfl, rfl, by decide⟩

/-- The `concurrency` option passed to `Effect.forEach`. -/
inductive ConcurrencyOpt where
  | bounded (n : Nat)
  | unbounded
deriving DecidableEq, Repr

/-- The option at the per-file load of `loadAllFiles`
(src/vault/file-loader.ts:130-151, line 150): `'unbounded'`. -/
def fileLoaderLoadConcurrency : ConcurrencyOpt := .unbounded

/-- The option at the per-file load of `loadAllFiles`
(src/vault-cache/service.ts:52-61, line 60): `10`. -/
def vaultCacheLoadConcurrency : ConcurrencyOpt := .bounded 10

/-- Semantics of `Effect.forEach`'s `concurrency` option: the maximum
number of simultaneously running tasks for `n` spawned tasks. -/
def maxInFlight : ConcurrencyOpt → Nat → Nat
  | .bounded k, n => min k n
  | .unbounded, n => n

/-- C9 counterexample: the per-file reads of the file-loader bulk load
(`concurrency: 'unbounded'`, src/vault/file-loader.ts:150) admit no fixed
bound on in-flight reads — with `B + 1` discovered files, `B + 1` reads
run at once. -/
theorem loadAllFiles_unbounded_reads :
    ¬ ∃ B, ∀ n, maxInFlight fileLoaderLoadConcurrency n ≤ B := by
  intro ⟨B, h⟩
  have := h (B + 1)
  simp [maxInFlight, fileLoaderLoadConcurrency] at this

/-- C9 (amended): the vault-cache bulk loader reads its discovered files
with the fixed fan-out 10, so at most 10 reads are ever in flight
regardless of vault size; the file-loader bulk loader instead passes
`'unbounded'`, so its in-flight reads grow with the number of discovered
files. -/
theorem loadAllFiles_concurrency :
    (∀ (root : FS) (vaultPath : FsPath),
        maxInFlight vaultCacheLoadConcurrency
            (walkDirectory [strOf ".obsidian"] root vaultPath).length ≤ 10) ∧
      fileLoaderLoadConcurrency = .unbounded ∧
      (∀ n, maxInFlight fileLoaderLoadConcurrency n = n) := by
  exact ⟨fun root vaultPath => Nat.min_le_left _ _, rfl, fun n => rfl⟩

/-- Model of JS `Map.prototype.delete` (keys unique). -/
def alistRemove {α : Type} (m : List (Str × α)) (k : Str) : List (Str × α) :=
  match m with
  | [] => []
  | (k0, v) :: rest => if k0 = k then rest else (k0, v) :: alistRemove rest k

/-- State of the watcher machinery of src/vault-cache/service.ts:109-177:
the disk contents, the per-path count of delivered events (`gen`), the
generation of each path's live pending timer (`armed` — `clearTimeout`
plus `setTimeout` overwrites it), the cache, and the ordered log of
applied cache updates (`some content` = upsert, `none` = delete). -/
structure WatchState where
  disk : List (Str × Str)
  gen : List (Str × Nat)
  armed : List (Str × Nat)
  cache : List (Str × Str)
  appLog : List (Str × Option Str)
deriving DecidableEq

/-- Events of the watcher machinery: a filesystem change to a path
(delivered by `fs.watch`, scheduling a debounced update when the path
ends in `.md`, src/vault-cache/service.ts:163-172,146-160), or the firing
of the timer armed with generation `g` (a stale `g` is a timer that
`clearTimeout` already cancelled and must act as a no-op). -/
inductive WatchEvent where
  | fsChange (p : Str) (c : Option Str)
  | fire (p : Str) (g : Nat)

/-- One transition: `fsChange` updates the disk and re-arms the path's
debounce timer (cancelling the previous one); `fire` with the live
generation runs `updateFile` (src/vault-cache/service.ts:112-144) against
the disk as it is now — upsert for an existing `.md` file, delete for a
missing path — while a cancelled timer changes nothing. -/
def watchStep (s : WatchState) : WatchEvent → WatchState
  | .fsChange p c =>
    let disk1 :=
      match c with
      | some content => setEntry s.disk p content
      | none => alistRemove s.disk p
    if strEnds (strOf ".md") p then
      let g := (alistGet s.gen p).getD 0 + 1
      { s with disk := disk1, gen := setEntry s.gen p g,
               armed := setEntry s.armed p g }
    else { s with disk := disk1 }
  | .fire p g =>
    match alistGet s.armed p with
    | some g0 =>
      if g0 = g then
        let s1 := { s with armed := alistRemove s.armed p }
        match alistGet s1.disk p with
        | some content =>
          if strEnds (strOf ".md") p then
            { s1 with cache := setEntry s1.cache p content,
                      appLog := s1.appLog ++ [(p, some content)] }
          else s1
        | none =>
          { s1 with cache := alistRemove s1.cache p,
                    appLog := s1.appLog ++ [(p, none)] }
      else s
    | none => s

/-- Run a sequence of watcher events. -/
def runTrace (s : WatchState) (tr : List WatchEvent) : WatchState :=
  tr.foldl watchStep s

/-- The burst of events: `cs` successive rewrites of path `p`. -/
def evs (p : Str) (cs : List Str) : List WatchEvent :=
  cs.map (fun c => WatchEvent.fsChange p (some c))

theorem alistGet_setEntry_self {α : Type} (m : List (Str × α)) (k : Str) (v : α) :
    alistGet (setEntry m k v) k = some v := by
  induction m with
  | nil => simp [setEntry, alistGet]
  | cons e rest ih =>
    obtain ⟨k0, v0⟩ := e
    by_cases h : k0 = k
    · simp [setEntry, h, alistGet]
    · simp [setEntry, h, alistGet, ih]

theorem runTrace_evs (p : Str) (hmd : strEnds (strOf ".md") p = true) :
    ∀ (cs : List Str) (s : WatchState), cs ≠ [] →
      (runTrace s (evs p cs)).appLog = s.appLog ∧
        (runTrace s (evs p cs)).cache = s.cache ∧
        alistGet (runTrace s (evs p cs)).disk p = cs.getLast? ∧
        alistGet (runTrace s (evs p cs)).armed p =
          some ((alistGet (runTrace s (evs p cs)).gen p).getD 0)
  | [], _, h => absurd rfl h
  | c :: rest, s, _ => by
    have hstep : runTrace s (evs p (c :: rest)) =
        runTrace (watchStep s (.fsChange p (some c))) (evs p rest) := rfl
    cases hr : rest with
    | nil =>
      subst hr
      refine ⟨?_, ?_, ?_, ?_⟩ <;>
        simp [hstep, runTrace, evs, watchStep, hmd, alistGet_setEntry_self]
    | cons c2 rest2 =>
      have IH := runTrace_evs p hmd (c2 :: rest2)
        (watchStep s (.fsChange p (some c))) (by simp)
      rw [hr] at hstep
      have happ : (watchStep s (.fsChange p (some c))).appLog = s.appLog := by
        simp [watchStep, hmd]
      have hcache : (watchStep s (.fsChange p (some c))).cache = s.cache := by
        simp [watchStep, hmd]
      refine ⟨?_, ?_, ?_, ?_⟩
      · rw [hstep, IH.1, happ]
      · rw [hstep, IH.2.1, hcache]
      · rw [hstep, IH.2.2.1]; rfl
      · rw [hstep]; exact IH.2.2.2

/-- C2: N rapid successive change events for a `.md` path within the
debounce window (no timer fires in between) apply nothing themselves;
the single surviving timer — each new event cancelled the previous one by
re-arming the path's entry — applies exactly one cache update, and that
update reflects the last event's file state; firing any cancelled
(stale-generation) timer changes nothing, so the path never applies an
update older than the last one it already applied. -/
theorem debounce_coalescing (s : WatchState) (p : Str) (cs : List Str)
    (hmd : strEnds (strOf ".md") p = true) (hcs : cs ≠ []) :
    (runTrace s (evs p cs)).appLog = s.appLog ∧
      (watchStep (runTrace s (evs p cs))
          (.fire p ((alistGet (runTrace s (evs p cs)).gen p).getD 0))).appLog =
        s.appLog ++ [(p, cs.getLast?)] ∧
      alistGet (watchStep (runTrace s (evs p cs))
          (.fire p ((alistGet (runTrace s (evs p cs)).gen p).getD 0))).cache p =
        cs.getLast? ∧
      (∀ g1, g1 ≠ (alistGet (runTrace s (evs p cs)).gen p).getD 0 →
        watchStep (runTrace s (evs p cs)) (.fire p g1) = runTrace s (evs p cs)) := by
  obtain ⟨happ, hcache, hdisk, harmed⟩ := runTrace_evs p hmd cs s hcs
  cases hlast : cs.getLast? with
  | none => exact absurd (List.getLast?_eq_none_iff.mp hlast) hcs
  | some lastC =>
    rw [hlast] at hdisk
    refine ⟨happ, ?_, ?_, ?_⟩
    · rw [watchStep.eq_def]
      simp only [harmed, hdisk, hmd, happ, hlast]
      simp
    · rw [watchStep.eq_def]
      simp only [harmed, hdisk, hmd, hlast]
      simp [alistGet_setEntry_self]
    · intro g1 hg1
      rw [watchStep.eq_def]
      simp only [harmed]
      rw [if_neg (fun he => hg1 he.symm)]

/-- Witness for C2: two rapid rewrites of `a.md` (contents `v1` then
`v2`) followed by the surviving timer's fire apply exactly one update,
holding `v2`. -/
theorem debounce_coalescing_witness :
    strEnds (strOf ".md") (strOf "a.md") = true ∧
      ([strOf "v1", strOf "v2"] : List Str) ≠ [] ∧
      (watchStep (runTrace ⟨[], [], [], [], []⟩
          (evs (strOf "a.md") [strOf "v1", strOf "v2"]))
          (.fire (strOf "a.md")
            ((alistGet (runTrace ⟨[], [], [], [], []⟩
                (evs (strOf "a.md") [strOf "v1", strOf "v2"])).gen
              (strOf "a.md")).getD 0))).appLog =
        ([] : List (Str × Option Str)) ++
          [(strOf "a.md", ([strOf "v1", strOf "v2"] : List Str).getLast?)] := by
  refine ⟨by decide, by decide, ?_⟩
  exact (debounce_coalescing ⟨[], [], [], [], []⟩ (strOf "a.md")
    [strOf "v1", strOf "v2"] (by decide) (by decide)).2.1
